import Mathlib

/-!
# Verification of the credential-blob patcher (`ProtoUtils` / `StateInjector`)

Shallow embedding of the protobuf-style wire manipulation code in
`src/services/AuthService.ts` (`ProtoUtils.encodeVarint`, `ProtoUtils.readVarint`,
`ProtoUtils.skipField`, `ProtoUtils.removeField`, `ProtoUtils.createOAuthField`,
`ProtoUtils.encodeTag`, and `StateInjector.injectTokenAndReload`).

Node `Buffer`s are modelled as `List Nat` (one entry per byte); JavaScript
`BigInt` arithmetic on non-negative values is `Nat` arithmetic (`&` is `&&&`,
`|` is `|||`, `>>`/`<<` are `>>>`/`<<<`).  The one JavaScript `throw` site in
this code (`skipField`'s `default` branch) becomes `Except.error`.  Loops are
written with an explicit fuel argument so that every definition computes by
kernel reduction; fuel-sufficiency lemmas below show the fuel never runs out
for the initial values the wrappers pass, so the fuel is invisible in all
statements.
-/

namespace ProtoUtils

/-- A Node `Buffer`: a list of bytes.  The source only ever stores values
`0 ≤ b ≤ 255` in these. -/
abbrev Buffer := List Nat

/-- The only exception `ProtoUtils` can raise: `skipField`'s
`throw new Error(\x7b...\x7d Unknown wireType)` on a wire type other than
0, 1, 2, 5. -/
inductive ProtoError where
  | unknownWireType (wireType : Nat)
deriving DecidableEq, Repr

/-- Loop body of `ProtoUtils.encodeVarint`
(`while (v >= 128n) { bytes.push((v & 127n) | 128n); v >>= 7n } bytes.push(v)`),
with fuel.  The fuel-0 fallback is never reached when `value ≤ fuel`
(`encodeVarintGo_congr` below). -/
def encodeVarintGo : Nat → Nat → List Nat
  | 0, v => [v]
  | fuel + 1, v =>
    if v < 128 then [v]
    else ((v &&& 127) ||| 128) :: encodeVarintGo fuel (v >>> 7)

/-- `ProtoUtils.encodeVarint(value)`: base-128 little-endian varint encoding.
(`BigInt` is exact; the argument is a non-negative integer.) -/
def encodeVarint (value : Nat) : Buffer :=
  encodeVarintGo value value

/-- Loop of `ProtoUtils.readVarint`, acting on the byte suffix
`buffer.drop offset` and returning `(value, number of bytes consumed)`.
Each iteration does `result |= (byte & 127n) << shift` and stops after the
first byte with the continuation bit `0x80` clear; if the buffer ends first,
the loop just runs out of bytes (the source raises no error). -/
def readVarintList : List Nat → Nat → Nat → Nat × Nat
  | [], result, _ => (result, 0)
  | byte :: rest, result, shift =>
    let result' := result ||| ((byte &&& 127) <<< shift)
    if byte &&& 128 = 0 then
      (result', 1)
    else
      let r := readVarintList rest result' (shift + 7)
      (r.1, r.2 + 1)

/-- `ProtoUtils.readVarint(buffer, offset)`: returns `{value, newOffset}`.
The source converts the `BigInt` result with `Number(...)`, which is exact
for values below `2^53`; the model keeps the exact value. -/
def readVarint (buffer : Buffer) (offset : Nat) : Nat × Nat :=
  let r := readVarintList (buffer.drop offset) 0 0
  (r.1, offset + r.2)

/-- `ProtoUtils.skipField(buffer, offset, wireType)`: computes the offset just
past the current field's payload.  Wire types 1 and 5 add a fixed size with no
bounds check; wire type 2 adds the decoded length; anything other than
0, 1, 2, 5 throws `Unknown wireType`. -/
def skipField (buffer : Buffer) (offset : Nat) (wireType : Nat) :
    Except ProtoError Nat :=
  match wireType with
  | 0 => .ok (readVarint buffer offset).2
  | 1 => .ok (offset + 8)
  | 2 =>
    let r := readVarint buffer offset
    .ok (r.2 + r.1)
  | 5 => .ok (offset + 4)
  | wt => .error (.unknownWireType wt)

/-- ToInt32 of a non-negative integer: the coercion JavaScript's `Number`
bitwise operators apply to their operands — reduce modulo `2^32` into
`[-2^31, 2^31)`.  The source computes `tag & 7` and `tag >> 3` on a `Number`,
so both operands wrap this way.  (For `tag & 7` the wrap is invisible: the
low 3 bits of `x` and of `ToInt32 x` agree, so the `Nat` expression
`tag &&& 7` below is already faithful; for `tag >> 3` it is not, which is why
`fieldNum` is an `Int` computed from `toInt32`.) -/
def toInt32 (x : Nat) : Int :=
  if x % 4294967296 < 2147483648 then ((x % 4294967296 : Nat) : Int)
  else ((x % 4294967296 : Nat) : Int) - 4294967296

/-- Loop of `ProtoUtils.removeField` (`while (offset < buffer.length)`), with
fuel.  Each iteration reads the tag varint, splits it into
`wireType = tag & 7` and `fieldNum = tag >> 3` — JavaScript `Number` bitwise
operations, so the tag wraps through ToInt32 and `>>` is an arithmetic shift
(Lean's `Int >>> Nat` has exactly those semantics) — skips the field, and
either drops the span (field number matches) or pushes
`buffer.subarray(startOffset, nextOffset)` — i.e.
`(buffer.take nextOffset).drop startOffset` — onto `chunks`. -/
def removeFieldGo (buffer : Buffer) (fieldNumToRemove : Nat) :
    Nat → Nat → List Buffer → Except ProtoError (List Buffer)
  | 0, _, chunks => .ok chunks
  | fuel + 1, offset, chunks =>
    if offset < buffer.length then
      let r := readVarint buffer offset
      let wireType := r.1 &&& 7
      let fieldNum := toInt32 r.1 >>> 3
      match skipField buffer r.2 wireType with
      | .error e => .error e
      | .ok next =>
        if fieldNum = (fieldNumToRemove : Int) then
          removeFieldGo buffer fieldNumToRemove fuel next chunks
        else
          removeFieldGo buffer fieldNumToRemove fuel next
            (chunks ++ [(buffer.take next).drop offset])
    else
      .ok chunks

/-- `ProtoUtils.removeField(buffer, fieldNumToRemove)`: one forward scan from
offset 0; the result is `Buffer.concat(chunks)`.  The fuel `buffer.length`
is sufficient because every iteration advances the offset by at least one
byte (`readVarint_lt_of_lt` below). -/
def removeField (buffer : Buffer) (fieldNumToRemove : Nat) :
    Except ProtoError Buffer :=
  (removeFieldGo buffer fieldNumToRemove buffer.length 0 []).map List.flatten

/-- One field discovered by a scan of the buffer: its number as the program
computes it (`ToInt32(tag) >> 3`, an `Int` that wraps for tags at or above
`2^31`), its wire type, the offset of its tag, the offset just past its tag
varint, and the offset just past its payload. -/
structure ScannedField where
  fieldNum : Int
  wireType : Nat
  start : Nat
  tagEnd : Nat
  fieldEnd : Nat
deriving DecidableEq, Repr

/-- The spec's "re-scan" of a buffer: repeatedly decode a tag and skip the
field, exactly as the `removeField` loop does — including the program's
ToInt32-wrapped `fieldNum = tag >> 3` — but record every field's span
instead of filtering.  This is the formal reading of "scanning the buffer";
it throws exactly where `removeField` throws. -/
def scanFieldsGo (buffer : Buffer) :
    Nat → Nat → Except ProtoError (List ScannedField)
  | 0, _ => .ok []
  | fuel + 1, offset =>
    if offset < buffer.length then
      let r := readVarint buffer offset
      let wireType := r.1 &&& 7
      let fieldNum := toInt32 r.1 >>> 3
      match skipField buffer r.2 wireType with
      | .error e => .error e
      | .ok next =>
        match scanFieldsGo buffer fuel next with
        | .error e => .error e
        | .ok rest =>
          .ok (⟨fieldNum, wireType, offset, r.2, next⟩ :: rest)
    else
      .ok []

/-- Scan a whole buffer from offset 0. -/
def scanFields (buffer : Buffer) : Except ProtoError (List ScannedField) :=
  scanFieldsGo buffer buffer.length 0

/-- `ProtoUtils.encodeTag(fieldNum, wireType)` =
`encodeVarint((fieldNum << 3) | wireType)`. -/
def encodeTag (fieldNum wireType : Nat) : Buffer :=
  encodeVarint ((fieldNum <<< 3) ||| wireType)

/-- UTF-8 encoding of one character (what `Buffer.from(s, 'utf8')` does per
code point). -/
def utf8EncodeChar (c : Char) : List Nat :=
  let n := c.toNat
  if n < 128 then [n]
  else if n < 2048 then
    [192 ||| (n >>> 6), 128 ||| (n &&& 63)]
  else if n < 65536 then
    [224 ||| (n >>> 12), 128 ||| ((n >>> 6) &&& 63), 128 ||| (n &&& 63)]
  else
    [240 ||| (n >>> 18), 128 ||| ((n >>> 12) &&& 63),
     128 ||| ((n >>> 6) &&& 63), 128 ||| (n &&& 63)]

/-- `Buffer.from(s, 'utf8')` as a byte list. -/
def utf8Bytes (s : String) : Buffer :=
  s.data.flatMap utf8EncodeChar

/-- JavaScript truthiness of the `accessToken : string | undefined` parameter:
`if (accessToken)` is taken iff the value is present and non-empty. -/
def truthy : Option String → Bool
  | some s => !s.isEmpty
  | none => false

/-- The `oauthInfo = Buffer.concat(parts)` payload built by
`ProtoUtils.createOAuthField`: sub-field 1 (`accessToken`, only if truthy),
sub-field 2 (`"Bearer"`), sub-field 3 (`refreshToken`, only if truthy — the
source guards it with `if (refreshToken)`), and sub-field 4 (a nested message
whose field 1 is the `expiry` varint). -/
def oauthInfo (accessToken : Option String) (refreshToken : String)
    (expiry : Nat) : Buffer :=
  let parts1 : List Buffer :=
    match accessToken with
    | some s =>
      if s.isEmpty then []
      else [encodeTag 1 2, encodeVarint (utf8Bytes s).length, utf8Bytes s]
    | none => []
  let parts2 : List Buffer :=
    [encodeTag 2 2, encodeVarint (utf8Bytes "Bearer").length,
     utf8Bytes "Bearer"]
  let parts3 : List Buffer :=
    if refreshToken.isEmpty then []
    else
      [encodeTag 3 2, encodeVarint (utf8Bytes refreshToken).length,
       utf8Bytes refreshToken]
  let innerBuf : Buffer := encodeTag 1 0 ++ encodeVarint expiry
  let parts4 : List Buffer :=
    [encodeTag 4 2, encodeVarint innerBuf.length, innerBuf]
  (parts1 ++ parts2 ++ parts3 ++ parts4).flatten

/-- `ProtoUtils.createOAuthField(accessToken, refreshToken, expiry)`: wraps
`oauthInfo` as the payload of an outer field 6 with wire type 2
(`encodeTag(6, 2) + encodeVarint(oauthInfo.length) + oauthInfo`). -/
def createOAuthField (accessToken : Option String) (refreshToken : String)
    (expiry : Nat) : Buffer :=
  encodeTag 6 2
    ++ encodeVarint (oauthInfo accessToken refreshToken expiry).length
    ++ oauthInfo accessToken refreshToken expiry

end ProtoUtils

namespace StateInjector

open ProtoUtils

/-- The `TokenData` fields `StateInjector.injectTokenAndReload` reads. -/
structure TokenData where
  access_token : String
  refresh_token : String
  expires_in : Nat
deriving DecidableEq, Repr

/-- The sqlite `ItemTable` of `state.vscdb`, abstracted to its key/value rows
(keys are unique). -/
structure Store where
  items : List (String × String)
deriving DecidableEq, Repr

/-- `SELECT value FROM ItemTable WHERE key='...' limit 1`. -/
def Store.get (s : Store) (key : String) : Option String :=
  (s.items.find? (fun kv => kv.1 == key)).map (·.2)

/-- `INSERT OR REPLACE INTO ItemTable (key, value) VALUES ('key', 'value')`. -/
def Store.upsert (s : Store) (key value : String) : Store :=
  ⟨s.items.filter (fun kv => kv.1 != key) ++ [(key, value)]⟩

/-- The character values of the base64 alphabet, for encoding. -/
def base64Char (n : Nat) : Char :=
  ("ABCDEFGHIJKLMNOPQRSTUVWXYZabcdefghijklmnopqrstuvwxyz0123456789+/".data).getD
    n 'A'

/-- The sextet value of one base64 character, as Node's decoder reads it
(it also accepts the url-safe variants and ignores every other character,
including padding). -/
def base64Index (c : Char) : Option Nat :=
  if 'A' ≤ c ∧ c ≤ 'Z' then some (c.toNat - 65)
  else if 'a' ≤ c ∧ c ≤ 'z' then some (c.toNat - 97 + 26)
  else if '0' ≤ c ∧ c ≤ '9' then some (c.toNat - 48 + 52)
  else if c = '+' ∨ c = '-' then some 62
  else if c = '/' ∨ c = '_' then some 63
  else none

/-- Reassemble bytes from base64 sextets, 4 sextets to 3 bytes, with Node's
handling of a trailing group of 2 or 3 sextets. -/
def sextetsToBytes : List Nat → List Nat
  | a :: b :: c :: d :: rest =>
    ((a <<< 2) ||| (b >>> 4))
      :: (((b &&& 15) <<< 4) ||| (c >>> 2))
      :: (((c &&& 3) <<< 6) ||| d)
      :: sextetsToBytes rest
  | [a, b, c] =>
    [(a <<< 2) ||| (b >>> 4), ((b &&& 15) <<< 4) ||| (c >>> 2)]
  | [a, b] =>
    [(a <<< 2) ||| (b >>> 4)]
  | _ => []

/-- `Buffer.from(s, 'base64')` as a byte list. -/
def base64Decode (s : String) : Buffer :=
  sextetsToBytes (s.data.filterMap base64Index)

/-- Byte-to-character step of standard base64 encoding with `=` padding. -/
def bytesToBase64 : List Nat → List Char
  | a :: b :: c :: rest =>
    base64Char (a >>> 2)
      :: base64Char (((a &&& 3) <<< 4) ||| (b >>> 4))
      :: base64Char (((b &&& 15) <<< 2) ||| (c >>> 6))
      :: base64Char (c &&& 63)
      :: bytesToBase64 rest
  | [a, b] =>
    [base64Char (a >>> 2), base64Char (((a &&& 3) <<< 4) ||| (b >>> 4)),
     base64Char ((b &&& 15) <<< 2), '=']
  | [a] =>
    [base64Char (a >>> 2), base64Char ((a &&& 3) <<< 4), '=', '=']
  | [] => []

/-- `buffer.toString('base64')`. -/
def base64Encode (b : Buffer) : String :=
  ⟨bytesToBase64 b⟩

/-- The credential container key. -/
def injectKey : String := "jetskiStateSync.agentManagerInitState"

/-- The onboarding sentinel key. -/
def onboardingKey : String := "antigravityOnboarding"

/-- `StateInjector.readDbValue`: the sqlite CLI query for the key; the
`stdout.trim() || null` step maps an absent row or empty value to `null`
(`trim` itself only strips the CLI's trailing newline). -/
def readDbValue (store : Store) (key : String) : Option String :=
  match store.get key with
  | some v => if v = "" then none else some v
  | none => none

/-- `StateInjector.injectTokenAndReload(token)`, from the point where the
database is resolved: read the current base64 value of `injectKey` (absent
means an empty buffer), `removeField(blob, 6)`, build the new field from
`token.access_token`, `token.refresh_token`, `token.expires_in`, concatenate,
write the base64 result back, then write the onboarding sentinel.  The two
`writeDbValue` calls happen only after `removeField` has succeeded, so a
wire-format error leaves the store untouched (the function returns `.error`
with no new store). -/
def injectTokenAndReload (store : Store) (token : TokenData) :
    Except ProtoError Store :=
  let blob : Buffer :=
    match readDbValue store injectKey with
    | none => []
    | some s => base64Decode s
  match removeField blob 6 with
  | .error e => .error e
  | .ok cleanData =>
    let newField :=
      createOAuthField (some token.access_token) token.refresh_token
        token.expires_in
    let finalData := cleanData ++ newField
    let finalB64 := base64Encode finalData
    let store := store.upsert injectKey finalB64
    let store := store.upsert onboardingKey "true"
    .ok store

end StateInjector

instance {ε α : Type} [DecidableEq ε] [DecidableEq α] : DecidableEq (Except ε α) :=
  fun a b =>
    match a, b with
    | .ok x, .ok y =>
      if h : x = y then isTrue (by rw [h]) else isFalse (by simp [h])
    | .error x, .error y =>
      if h : x = y then isTrue (by rw [h]) else isFalse (by simp [h])
    | .ok _, .error _ => isFalse (by simp)
    | .error _, .ok _ => isFalse (by simp)

namespace ProtoUtils

/-! ## Bit-arithmetic helpers -/

/-- Or-ing disjoint bit ranges is addition: if `b` fits below bit `n`,
`(a <<< n) ||| b = a <<< n + b`. -/
theorem lor_shiftLeft_eq_add {b n : Nat} (a : Nat) (h : b < 2 ^ n) :
    (a <<< n) ||| b = a <<< n + b := by
  rw [Nat.shiftLeft_eq, Nat.mul_comm]
  exact (Nat.mul_add_lt_is_or h a).symm

theorem and_127_eq_mod (x : Nat) : x &&& 127 = x % 128 := by
  have h : (127 : Nat) = 2 ^ 7 - 1 := by norm_num
  rw [h, Nat.and_pow_two_sub_one_eq_mod]

theorem and_127_lt (x : Nat) : x &&& 127 < 128 := by
  rw [and_127_eq_mod]; exact Nat.mod_lt _ (by norm_num)

theorem and_128_of_lt {x : Nat} (h : x < 128) : x &&& 128 = 0 := by
  apply Nat.eq_of_testBit_eq
  intro i
  rw [Nat.testBit_and]
  have h128 : (128 : Nat) = 2 ^ 7 := by norm_num
  by_cases hi : i = 7
  · subst hi
    simp [Nat.testBit_lt_two_pow (show x < 2 ^ 7 by norm_num at h ⊢; omega)]
  · rw [h128, Nat.testBit_two_pow]
    simp [Ne.symm hi]

theorem and_127_of_lt {x : Nat} (h : x < 128) : x &&& 127 = x := by
  rw [and_127_eq_mod]; exact Nat.mod_eq_of_lt h

/-- The continuation byte `(v &&& 127) ||| 128` has the high bit set. -/
theorem contByte_and_128 (v : Nat) : ((v &&& 127) ||| 128) &&& 128 = 128 := by
  rw [Nat.and_distrib_right, and_128_of_lt (and_127_lt v)]
  simp

/-- The continuation byte's payload bits are `v &&& 127`. -/
theorem contByte_and_127 (v : Nat) : ((v &&& 127) ||| 128) &&& 127 = v &&& 127 := by
  rw [Nat.and_distrib_right, Nat.and_assoc]
  simp [show (128 : Nat) &&& 127 = 0 from rfl, show (127 : Nat) &&& 127 = 127 from rfl]

/-- Recombining a split varint group:
`(v &&& 127) <<< shift ||| (v >>> 7) <<< (shift + 7) = v <<< shift`. -/
theorem varint_group_recombine (v shift : Nat) :
    ((v &&& 127) <<< shift) ||| ((v >>> 7) <<< (shift + 7)) = v <<< shift := by
  rw [Nat.lor_comm]
  have hb : (v &&& 127) <<< shift < 2 ^ (shift + 7) := by
    rw [Nat.shiftLeft_eq]
    calc (v &&& 127) * 2 ^ shift < 128 * 2 ^ shift := by
          exact (Nat.mul_lt_mul_right (Nat.pos_pow_of_pos shift (by norm_num))).mpr
            (and_127_lt v)
      _ = 2 ^ (shift + 7) := by rw [Nat.pow_add]; ring
  rw [lor_shiftLeft_eq_add _ hb]
  rw [Nat.shiftLeft_eq, Nat.shiftLeft_eq, Nat.shiftLeft_eq,
    Nat.shiftRight_eq_div_pow, and_127_eq_mod]
  have : (2 : Nat) ^ 7 = 128 := by norm_num
  rw [Nat.pow_add, this]
  have hdm := Nat.div_add_mod v 128
  calc v / 128 * (2 ^ shift * 128) + v % 128 * 2 ^ shift
      = (128 * (v / 128) + v % 128) * 2 ^ shift := by ring
    _ = v * 2 ^ shift := by rw [hdm]

/-! ## `encodeVarint`: fuel elimination and the encoding equation -/

theorem encodeVarintGo_congr :
    ∀ v fuel₁ fuel₂, v ≤ fuel₁ → v ≤ fuel₂ →
      encodeVarintGo fuel₁ v = encodeVarintGo fuel₂ v := by
  intro v
  induction v using Nat.strong_induction_on with
  | _ v ih =>
    intro fuel₁ fuel₂ h₁ h₂
    match fuel₁, fuel₂ with
    | 0, 0 => rfl
    | 0, f₂ + 1 =>
      have hv : v = 0 := Nat.le_zero.mp h₁
      subst hv
      simp [encodeVarintGo]
    | f₁ + 1, 0 =>
      have hv : v = 0 := Nat.le_zero.mp h₂
      subst hv
      simp [encodeVarintGo]
    | f₁ + 1, f₂ + 1 =>
      simp only [encodeVarintGo]
      by_cases hv : v < 128
      · simp [hv]
      · have hlt : v >>> 7 < v := by
          rw [Nat.shiftRight_eq_div_pow]
          exact Nat.div_lt_self (by omega) (by norm_num)
        simp only [if_neg hv]
        rw [ih (v >>> 7) hlt f₁ f₂ (by omega) (by omega)]

/-- The recursion equation of the source's `encodeVarint` loop, fuel-free. -/
theorem encodeVarint_eq (v : Nat) :
    encodeVarint v =
      if v < 128 then [v]
      else ((v &&& 127) ||| 128) :: encodeVarint (v >>> 7) := by
  unfold encodeVarint
  match v with
  | 0 => simp [encodeVarintGo]
  | n + 1 =>
    simp only [encodeVarintGo]
    by_cases hv : n + 1 < 128
    · simp [hv]
    · have hlt : (n + 1) >>> 7 < n + 1 := by
        rw [Nat.shiftRight_eq_div_pow]
        exact Nat.div_lt_self (by omega) (by norm_num)
      simp only [if_neg hv]
      rw [encodeVarintGo_congr ((n + 1) >>> 7) n ((n + 1) >>> 7) (by omega) le_rfl]

theorem encodeVarint_ne_nil (v : Nat) : encodeVarint v ≠ [] := by
  rw [encodeVarint_eq]
  split <;> simp

theorem encodeVarint_length_pos (v : Nat) : 0 < (encodeVarint v).length :=
  List.length_pos.mpr (encodeVarint_ne_nil v)

/-! ## `readVarint`: decoding what `encodeVarint` produced -/

/-- The read loop, run over an encoded varint followed by anything, consumes
exactly the encoded bytes and merges the decoded value into the accumulator
at the current shift. -/
theorem readVarintList_encode (v : Nat) :
    ∀ suf result shift,
      readVarintList (encodeVarint v ++ suf) result shift
        = (result ||| (v <<< shift), (encodeVarint v).length) := by
  induction v using Nat.strong_induction_on with
  | _ v ih =>
    intro suf result shift
    rw [encodeVarint_eq]
    by_cases hv : v < 128
    · simp only [if_pos hv, List.cons_append, readVarintList,
        and_128_of_lt hv, and_127_of_lt hv, if_pos rfl]
      simp
    · have hlt : v >>> 7 < v := by
        rw [Nat.shiftRight_eq_div_pow]
        exact Nat.div_lt_self (by omega) (by norm_num)
      simp only [if_neg hv, List.cons_append, readVarintList,
        contByte_and_128, contByte_and_127]
      rw [if_neg (by norm_num)]
      rw [ih (v >>> 7) hlt suf (result ||| ((v &&& 127) <<< shift)) (shift + 7)]
      simp only [List.length_cons]
      rw [Nat.lor_assoc, varint_group_recombine]

/-- `readVarint` decodes an encoded varint in context: reading at the end of
`pre` returns the encoded value and advances exactly past its bytes. -/
theorem readVarint_encode (pre suf : List Nat) (v : Nat) :
    readVarint (pre ++ (encodeVarint v ++ suf)) pre.length
      = (v, pre.length + (encodeVarint v).length) := by
  unfold readVarint
  rw [List.drop_left, readVarintList_encode]
  simp

/-! ## Progress and bounds of the read loop -/

theorem readVarintList_consumed_le :
    ∀ (l : List Nat) result shift, (readVarintList l result shift).2 ≤ l.length := by
  intro l
  induction l with
  | nil => intro result shift; simp [readVarintList]
  | cons b rest ih =>
    intro result shift
    simp only [readVarintList]
    split
    · simp
    · simpa using Nat.add_le_add_right (ih _ _) 1

theorem readVarintList_consumed_pos (b : Nat) (rest : List Nat)
    (result shift : Nat) : 1 ≤ (readVarintList (b :: rest) result shift).2 := by
  simp only [readVarintList]
  split
  · simp
  · omega

theorem readVarint_le (buffer : Buffer) (offset : Nat) :
    offset ≤ (readVarint buffer offset).2 := by
  simp [readVarint]

theorem readVarint_le_length {buffer : Buffer} {offset : Nat}
    (h : offset ≤ buffer.length) : (readVarint buffer offset).2 ≤ buffer.length := by
  unfold readVarint
  have hc := readVarintList_consumed_le (buffer.drop offset) 0 0
  simp only [List.length_drop] at hc
  simp only []
  omega

theorem readVarint_lt_of_lt {buffer : Buffer} {offset : Nat}
    (h : offset < buffer.length) : offset < (readVarint buffer offset).2 := by
  unfold readVarint
  match hd : buffer.drop offset with
  | [] =>
    have := congrArg List.length hd
    simp only [List.length_drop, List.length_nil] at this
    omega
  | b :: rest =>
    have := readVarintList_consumed_pos b rest 0 0
    simp only []
    omega

theorem skipField_ge {buffer : Buffer} {offset wt next : Nat}
    (h : skipField buffer offset wt = .ok next) : offset ≤ next := by
  match wt with
  | 0 =>
    simp only [skipField, Except.ok.injEq] at h
    subst h
    exact readVarint_le buffer offset
  | 1 => simp only [skipField, Except.ok.injEq] at h; omega
  | 2 =>
    simp only [skipField, Except.ok.injEq] at h
    have := readVarint_le buffer offset
    omega
  | 5 => simp only [skipField, Except.ok.injEq] at h; omega
  | 3 | 4 | (n + 6) => simp [skipField] at h

/-! ## Byte structure of the encoding -/

theorem encodeVarint_getD (v : Nat) :
    ∀ i, i < (encodeVarint v).length →
      (encodeVarint v).getD i 0 &&& 127 = (v >>> (7 * i)) &&& 127
        ∧ ((encodeVarint v).getD i 0 &&& 128 = 0 ↔
            i = (encodeVarint v).length - 1) := by
  induction v using Nat.strong_induction_on with
  | _ v ih =>
    intro i hi
    by_cases hv : v < 128
    · rw [encodeVarint_eq, if_pos hv] at hi ⊢
      simp only [List.length_singleton] at hi
      have hz : i = 0 := by omega
      subst hz
      simp [and_128_of_lt hv]
    · have hlt : v >>> 7 < v := by
        rw [Nat.shiftRight_eq_div_pow]
        exact Nat.div_lt_self (by omega) (by norm_num)
      have hpos := encodeVarint_length_pos (v >>> 7)
      rw [encodeVarint_eq, if_neg hv] at hi ⊢
      match i with
      | 0 =>
        refine ⟨by simpa using contByte_and_127 v, ?_⟩
        simp only [List.getD_cons_zero, contByte_and_128, List.length_cons]
        constructor
        · intro hc; norm_num at hc
        · intro hc; omega
      | j + 1 =>
        simp only [List.length_cons] at hi
        have hj : j < (encodeVarint (v >>> 7)).length := by omega
        obtain ⟨ih1, ih2⟩ := ih (v >>> 7) hlt j hj
        refine ⟨?_, ?_⟩
        · simp only [List.getD_cons_succ]
          rw [ih1, ← Nat.shiftRight_add]
          congr 2
          ring
        · simp only [List.getD_cons_succ, List.length_cons]
          rw [ih2]
          omega

/-! ## Well-formed field representations

A buffer "with fields `[n₁: v₁, n₂: v₂, …]`" (the spec's phrasing) is the
concatenation of encoded fields.  `FieldVal` is the payload of one field
together with its wire type; `valid` records the fixed sizes of the
fixed-width wire types. -/

inductive FieldVal where
  | varint (v : Nat)
  | fixed64 (bytes : List Nat)
  | lengthDelimited (payload : List Nat)
  | fixed32 (bytes : List Nat)
deriving DecidableEq, Repr

def FieldVal.wireType : FieldVal → Nat
  | .varint _ => 0
  | .fixed64 _ => 1
  | .lengthDelimited _ => 2
  | .fixed32 _ => 5

def FieldVal.valid : FieldVal → Prop
  | .varint _ => True
  | .fixed64 b => b.length = 8
  | .lengthDelimited _ => True
  | .fixed32 b => b.length = 4

/-- The wire bytes of the field's payload (for length-delimited fields,
length varint plus raw payload). -/
def FieldVal.wireBytes : FieldVal → List Nat
  | .varint v => encodeVarint v
  | .fixed64 b => b
  | .lengthDelimited p => encodeVarint p.length ++ p
  | .fixed32 b => b

/-- One encoded field: tag varint followed by the payload bytes. -/
def encodeField (num : Nat) (val : FieldVal) : List Nat :=
  encodeTag num val.wireType ++ val.wireBytes

def encodeFields (fs : List (Nat × FieldVal)) : List Nat :=
  (fs.map fun f => encodeField f.1 f.2).flatten

theorem FieldVal.wireType_lt (val : FieldVal) : val.wireType < 8 := by
  cases val <;> simp [wireType]

/-! ## Decoding a tag -/

theorem tag_decode (num wt : Nat) (h : wt < 8) :
    ((num <<< 3) ||| wt) >>> 3 = num ∧ ((num <<< 3) ||| wt) &&& 7 = wt := by
  have h8 : (8 : Nat) = 2 ^ 3 := by norm_num
  have hadd : (num <<< 3) ||| wt = num * 8 + wt := by
    rw [lor_shiftLeft_eq_add num (show wt < 2 ^ 3 by norm_num; omega), Nat.shiftLeft_eq]
  have h23 : (2 : Nat) ^ 3 = 8 := by norm_num
  constructor
  · rw [hadd, Nat.shiftRight_eq_div_pow, h23]
    omega
  · rw [hadd]
    have h7 : (7 : Nat) = 2 ^ 3 - 1 := by norm_num
    rw [h7, Nat.and_pow_two_sub_one_eq_mod, h23]
    omega

theorem toInt32_of_lt {x : Nat} (h : x < 2147483648) : toInt32 x = (x : Int) := by
  unfold toInt32
  rw [Nat.mod_eq_of_lt (by omega)]
  rw [if_pos h]

/-- Decoding the program's wrapped field number of a tag built from a field
number below `2^28` (so the tag is below `2^31` and `ToInt32` is the
identity) gives the field number back. -/
theorem tag_decode_wrapped (num wt : Nat) (hnum : num < 268435456)
    (hwt : wt < 8) :
    toInt32 ((num <<< 3) ||| wt) >>> 3 = (num : Int) := by
  have hadd : (num <<< 3) ||| wt = num * 8 + wt := by
    rw [lor_shiftLeft_eq_add num (show wt < 2 ^ 3 by norm_num; omega),
      Nat.shiftLeft_eq]
  rw [hadd, toInt32_of_lt (by omega)]
  show Int.ofNat ((num * 8 + wt) >>> 3) = Int.ofNat num
  congr 1
  rw [Nat.shiftRight_eq_div_pow]
  have h23 : (2 : Nat) ^ 3 = 8 := by norm_num
  rw [h23]
  omega

/-! ## List span helpers -/

theorem take_drop_middle_eq (pre mid suf : List Nat) :
    ((pre ++ (mid ++ suf)).take (pre.length + mid.length)).drop pre.length
      = mid := by
  rw [← List.append_assoc, List.take_left' (by simp), List.drop_left]

theorem encodeField_length_pos (num : Nat) (val : FieldVal) :
    0 < (encodeField num val).length := by
  unfold encodeField encodeTag
  rw [List.length_append]
  have := encodeVarint_length_pos ((num <<< 3) ||| val.wireType)
  omega

/-! ## Scanning one encoded field in context -/

/-- Reading a tag at the start of an encoded field decodes the tag varint and
stops right after it. -/
theorem readVarint_field (pre suf : List Nat) (num : Nat) (val : FieldVal) :
    readVarint (pre ++ (encodeField num val ++ suf)) pre.length
      = ((num <<< 3) ||| val.wireType,
         pre.length + (encodeTag num val.wireType).length) := by
  have h : encodeField num val ++ suf
      = encodeVarint ((num <<< 3) ||| val.wireType) ++ (val.wireBytes ++ suf) := by
    simp [encodeField, encodeTag, List.append_assoc]
  rw [h, readVarint_encode]
  rfl

/-- Skipping the payload of a valid encoded field, starting right after its
tag, lands exactly at the end of the field. -/
theorem skipField_field (pre suf : List Nat) (num : Nat) (val : FieldVal)
    (hval : val.valid) :
    skipField (pre ++ (encodeField num val ++ suf))
        (pre.length + (encodeTag num val.wireType).length) val.wireType
      = .ok (pre.length + (encodeField num val).length) := by
  cases val with
  | varint v =>
    have hb : pre ++ (encodeField num (FieldVal.varint v) ++ suf)
        = (pre ++ encodeTag num 0) ++ (encodeVarint v ++ suf) := by
      simp [encodeField, FieldVal.wireBytes, FieldVal.wireType, List.append_assoc]
    have ho : pre.length + (encodeTag num (FieldVal.varint v).wireType).length
        = (pre ++ encodeTag num 0).length := by
      simp [FieldVal.wireType]
    rw [hb, ho]
    show Except.ok (readVarint _ _).2 = _
    rw [readVarint_encode]
    simp [encodeField, FieldVal.wireBytes, FieldVal.wireType, encodeTag]
    omega
  | fixed64 b =>
    show Except.ok _ = _
    simp only [FieldVal.valid] at hval
    simp [encodeField, FieldVal.wireBytes, FieldVal.wireType, hval]
    omega
  | lengthDelimited p =>
    have hb : pre ++ (encodeField num (FieldVal.lengthDelimited p) ++ suf)
        = (pre ++ encodeTag num 2)
            ++ (encodeVarint p.length ++ (p ++ suf)) := by
      simp [encodeField, FieldVal.wireBytes, FieldVal.wireType, List.append_assoc]
    have ho : pre.length
          + (encodeTag num (FieldVal.lengthDelimited p).wireType).length
        = (pre ++ encodeTag num 2).length := by
      simp [FieldVal.wireType]
    rw [hb, ho]
    show Except.ok ((readVarint _ _).2 + (readVarint _ _).1) = _
    rw [readVarint_encode]
    simp [encodeField, FieldVal.wireBytes, FieldVal.wireType, encodeTag]
    omega
  | fixed32 b =>
    show Except.ok _ = _
    simp only [FieldVal.valid] at hval
    simp [encodeField, FieldVal.wireBytes, FieldVal.wireType, hval]
    omega

theorem encodeFields_nil : encodeFields [] = [] := rfl

theorem encodeFields_cons (num : Nat) (val : FieldVal)
    (fs : List (Nat × FieldVal)) :
    encodeFields ((num, val) :: fs) = encodeField num val ++ encodeFields fs := by
  simp [encodeFields]

/-! ## The `removeField` loop over a buffer of encoded fields -/

/-- Running the `removeField` loop over a buffer of well-formed encoded
fields whose field numbers stay below `2^28` (so the program's
ToInt32-wrapped `tag >> 3` coincides with the field number) keeps exactly
the fields whose number differs from the target, each as one verbatim
chunk, in order. -/
theorem removeFieldGo_fields (n : Nat) :
    ∀ (fs : List (Nat × FieldVal)), (∀ f ∈ fs, f.2.valid) →
      (∀ f ∈ fs, f.1 < 268435456) →
      ∀ (pre : List Nat) (chunks : List Buffer) (fuel : Nat),
        (pre ++ encodeFields fs).length ≤ pre.length + fuel →
        removeFieldGo (pre ++ encodeFields fs) n fuel pre.length chunks
          = .ok (chunks ++ (fs.filter (fun f => f.1 != n)).map
              (fun f => encodeField f.1 f.2)) := by
  intro fs
  induction fs with
  | nil =>
    intro _ _ pre chunks fuel _
    have hnot : ¬ pre.length < (pre ++ encodeFields []).length := by
      simp [encodeFields_nil]
    cases fuel with
    | zero => simp [removeFieldGo]
    | succ f =>
      simp only [removeFieldGo, if_neg hnot]
      simp
  | cons f fs ih =>
    intro hval hlt28 pre chunks fuel hfuel
    obtain ⟨num, val⟩ := f
    have hv : val.valid := hval (num, val) (List.mem_cons_self _ _)
    have hvs : ∀ f ∈ fs, f.2.valid := fun f hf => hval f (List.mem_cons_of_mem _ hf)
    have hn28 : num < 268435456 := hlt28 (num, val) (List.mem_cons_self _ _)
    have hlt28s : ∀ f ∈ fs, f.1 < 268435456 := fun f hf =>
      hlt28 f (List.mem_cons_of_mem _ hf)
    have hpos := encodeField_length_pos num val
    rw [encodeFields_cons, ← List.append_assoc] at hfuel ⊢
    rw [List.append_assoc] at hfuel ⊢
    have hlt : pre.length < (pre ++ (encodeField num val ++ encodeFields fs)).length := by
      rw [List.length_append, List.length_append]
      omega
    cases fuel with
    | zero =>
      rw [List.length_append, List.length_append] at hfuel
      omega
    | succ f =>
      simp only [removeFieldGo, if_pos hlt,
        readVarint_field pre (encodeFields fs) num val,
        tag_decode_wrapped num val.wireType hn28 val.wireType_lt,
        (tag_decode num val.wireType val.wireType_lt).2,
        skipField_field pre (encodeFields fs) num val hv,
        Nat.cast_inj]
      have hnext : pre.length + (encodeField num val).length
          = (pre ++ encodeField num val).length := by simp
      have hbuf : pre ++ (encodeField num val ++ encodeFields fs)
          = (pre ++ encodeField num val) ++ encodeFields fs := by
        rw [List.append_assoc]
      have hfuel' : ((pre ++ encodeField num val) ++ encodeFields fs).length
          ≤ (pre ++ encodeField num val).length + f := by
        simp only [List.length_append] at hfuel ⊢
        omega
      by_cases hn : num = n
      · rw [if_pos hn, hnext, hbuf, ih hvs hlt28s (pre ++ encodeField num val) chunks f hfuel']
        have : ((num, val) :: fs).filter (fun f => f.1 != n)
            = fs.filter (fun f => f.1 != n) := by
          simp [List.filter_cons, hn]
        rw [this]
      · rw [if_neg hn]
        have hchunk : ((pre ++ (encodeField num val ++ encodeFields fs)).take
              (pre.length + (encodeField num val).length)).drop pre.length
            = encodeField num val :=
          take_drop_middle_eq pre (encodeField num val) (encodeFields fs)
        rw [hchunk, hnext, hbuf,
          ih hvs hlt28s (pre ++ encodeField num val) (chunks ++ [encodeField num val]) f hfuel']
        have : ((num, val) :: fs).filter (fun f => f.1 != n)
            = (num, val) :: fs.filter (fun f => f.1 != n) := by
          simp [List.filter_cons, hn]
        rw [this]
        simp

/-- `removeField` on a buffer of well-formed encoded fields with field
numbers below `2^28` drops every field numbered `n` and keeps all others
verbatim, in their original order. -/
theorem removeField_fields (n : Nat) (fs : List (Nat × FieldVal))
    (hval : ∀ f ∈ fs, f.2.valid) (hlt28 : ∀ f ∈ fs, f.1 < 268435456) :
    removeField (encodeFields fs) n
      = .ok (encodeFields (fs.filter (fun f => f.1 != n))) := by
  unfold removeField
  have h := removeFieldGo_fields n fs hval hlt28 [] [] (encodeFields fs).length
    (by simp)
  simp only [List.nil_append, List.length_nil] at h
  rw [h]
  simp [encodeFields, Except.map]

/-! ## The scan over a buffer of encoded fields -/

/-- Scanning a buffer of well-formed encoded fields with field numbers below
`2^28` succeeds and reports the fields' numbers (unwrapped, since the tags
stay below `2^31`) and wire types in order. -/
theorem scanFieldsGo_fields :
    ∀ (fs : List (Nat × FieldVal)), (∀ f ∈ fs, f.2.valid) →
      (∀ f ∈ fs, f.1 < 268435456) →
      ∀ (pre : List Nat) (fuel : Nat),
        (pre ++ encodeFields fs).length ≤ pre.length + fuel →
        ∃ l, scanFieldsGo (pre ++ encodeFields fs) fuel pre.length = .ok l
          ∧ l.map ScannedField.fieldNum = fs.map (fun f => (f.1 : Int))
          ∧ l.map ScannedField.wireType = fs.map (fun f => f.2.wireType) := by
  intro fs
  induction fs with
  | nil =>
    intro _ _ pre fuel _
    have hnot : ¬ pre.length < (pre ++ encodeFields []).length := by
      simp [encodeFields_nil]
    cases fuel with
    | zero => exact ⟨[], by simp [scanFieldsGo]⟩
    | succ f => exact ⟨[], by simp only [scanFieldsGo, if_neg hnot]; simp⟩
  | cons f fs ih =>
    intro hval hlt28 pre fuel hfuel
    obtain ⟨num, val⟩ := f
    have hv : val.valid := hval (num, val) (List.mem_cons_self _ _)
    have hvs : ∀ f ∈ fs, f.2.valid := fun f hf => hval f (List.mem_cons_of_mem _ hf)
    have hn28 : num < 268435456 := hlt28 (num, val) (List.mem_cons_self _ _)
    have hlt28s : ∀ f ∈ fs, f.1 < 268435456 := fun f hf =>
      hlt28 f (List.mem_cons_of_mem _ hf)
    have hpos := encodeField_length_pos num val
    rw [encodeFields_cons] at hfuel ⊢
    have hlt : pre.length < (pre ++ (encodeField num val ++ encodeFields fs)).length := by
      rw [List.length_append, List.length_append]
      omega
    cases fuel with
    | zero =>
      rw [List.length_append, List.length_append] at hfuel
      omega
    | succ f =>
      have hnext : pre.length + (encodeField num val).length
          = (pre ++ encodeField num val).length := by simp
      have hbuf : pre ++ (encodeField num val ++ encodeFields fs)
          = (pre ++ encodeField num val) ++ encodeFields fs := by
        rw [List.append_assoc]
      have hfuel' : ((pre ++ encodeField num val) ++ encodeFields fs).length
          ≤ (pre ++ encodeField num val).length + f := by
        simp only [List.length_append] at hfuel ⊢
        omega
      obtain ⟨l, hl, hm1, hm2⟩ := ih hvs hlt28s (pre ++ encodeField num val) f hfuel'
      refine ⟨⟨(num : Int), val.wireType, pre.length,
        pre.length + (encodeTag num val.wireType).length,
        pre.length + (encodeField num val).length⟩ :: l, ?_, ?_, ?_⟩
      · simp only [scanFieldsGo, if_pos hlt,
          readVarint_field pre (encodeFields fs) num val,
          tag_decode_wrapped num val.wireType hn28 val.wireType_lt,
          (tag_decode num val.wireType val.wireType_lt).2,
          skipField_field pre (encodeFields fs) num val hv]
        rw [hnext, hbuf, hl]
      · simp [hm1]
      · simp [hm2]

/-- Full-buffer version of `scanFieldsGo_fields`. -/
theorem scanFields_fields (fs : List (Nat × FieldVal))
    (hval : ∀ f ∈ fs, f.2.valid) (hlt28 : ∀ f ∈ fs, f.1 < 268435456) :
    ∃ l, scanFields (encodeFields fs) = .ok l
      ∧ l.map ScannedField.fieldNum = fs.map (fun f => (f.1 : Int))
      ∧ l.map ScannedField.wireType = fs.map (fun f => f.2.wireType) := by
  have h := scanFieldsGo_fields fs hval hlt28 [] (encodeFields fs).length
    (by simp)
  simpa [scanFields] using h

/-! ## The remove loop follows the scan -/

/-- When every remaining byte has the continuation bit set, the read loop
consumes the whole list. -/
theorem readVarintList_all_cont :
    ∀ (l : List Nat), (∀ b ∈ l, b &&& 128 ≠ 0) →
      ∀ result shift, (readVarintList l result shift).2 = l.length := by
  intro l
  induction l with
  | nil =>
    intro _ result shift
    simp [readVarintList]
  | cons b rest ih =>
    intro h result shift
    have hb : b &&& 128 ≠ 0 := h b (List.mem_cons_self _ _)
    simp only [readVarintList, if_neg hb]
    have hr := ih (fun x hx => h x (List.mem_cons_of_mem _ hx))
      (result ||| ((b &&& 127) <<< shift)) (shift + 7)
    simp [hr]

instance (val : FieldVal) : Decidable val.valid :=
  match val with
  | .varint _ => isTrue trivial
  | .fixed64 b => (inferInstance : Decidable (b.length = 8))
  | .lengthDelimited _ => isTrue trivial
  | .fixed32 b => (inferInstance : Decidable (b.length = 4))

theorem encodeFields_append (a b : List (Nat × FieldVal)) :
    encodeFields (a ++ b) = encodeFields a ++ encodeFields b := by
  simp [encodeFields]

/-! ## Claim theorems (wire-format layer) -/

/-- C2 counterexample: on the buffer `[0x80]`, which ends before any byte with
the continuation bit clear, `readVarint` at offset 0 does not fail with any
error — it returns the value `0` accumulated so far, with
`newOffset = 1 = buffer.length`.  The source has no `MalformedVarint` (or any
other) failure path in `readVarint`: its loop simply stops at the end of the
buffer, refuting the claim that decoding fails there. -/
theorem claim_C2_counterexample : readVarint [128] 0 = (0, 1) := by decide

/-- C2 amended: `readVarint` never fails.  If every byte from `offset` on has
the continuation bit `0x80` set (so the buffer ends before a terminating
byte), it returns normally with the partially accumulated value and
`newOffset = buffer.length`. -/
theorem claim_C2_readVarint_no_failure (buffer : Buffer) (offset : Nat)
    (hoff : offset ≤ buffer.length)
    (hbit : ∀ b ∈ buffer.drop offset, b &&& 128 ≠ 0) :
    (readVarint buffer offset).2 = buffer.length := by
  unfold readVarint
  have h := readVarintList_all_cont (buffer.drop offset) hbit 0 0
  simp only [List.length_drop] at h
  simp only []
  omega

/-- C2 witness: both bytes of `[0x80, 0xFF]` have the continuation bit set,
and `readVarint` returns offset 2 (the buffer length) with no failure. -/
theorem claim_C2_witness :
    (readVarint [128, 255] 0).2 = List.length [128, 255] :=
  claim_C2_readVarint_no_failure [128, 255] 0 (by decide) (by decide)

/-- C3 counterexample: skipping a Fixed64 (wire type 1) payload at offset 1 of
the one-byte buffer `[0x09]` returns offset `9`, past the buffer end, with no
error — there is no `TruncatedBuffer` failure path, refuting the claim that a
skip past the end of the buffer fails. -/
theorem claim_C3_counterexample :
    skipField [9] 1 1 = .ok 9 ∧ List.length [9] < 9 := by
  constructor
  · decide
  · decide

/-- C3 amended: `skipField` performs no bounds check for any supported wire
type: wire types 1 and 5 unconditionally return `offset + 8` and
`offset + 4`, wire type 0 returns wherever the (end-clamped) varint read
stops, and wire type 2 adds the decoded length to the varint end, in every
case without comparing against the buffer length, so a skip can return an
offset past the buffer end instead of failing. -/
theorem claim_C3_skipField_no_bounds_check (buffer : Buffer) (offset : Nat) :
    skipField buffer offset 0 = .ok (readVarint buffer offset).2
      ∧ skipField buffer offset 1 = .ok (offset + 8)
      ∧ skipField buffer offset 2
          = .ok ((readVarint buffer offset).2 + (readVarint buffer offset).1)
      ∧ skipField buffer offset 5 = .ok (offset + 4) :=
  ⟨rfl, rfl, rfl, rfl⟩

/-- C6: for every `v`, decoding the bytes produced by `encodeVarint v` from
offset 0 yields exactly `v` (consuming the whole encoding), and the encoding
carries 7 payload bits per byte, low-order group first, with the continuation
bit `0x80` set on every byte except the last. -/
theorem claim_C6_varint_roundtrip (v : Nat) :
    readVarint (encodeVarint v) 0 = (v, (encodeVarint v).length)
      ∧ ∀ i, i < (encodeVarint v).length →
          ((encodeVarint v).getD i 0 &&& 127 = (v >>> (7 * i)) &&& 127
            ∧ ((encodeVarint v).getD i 0 &&& 128 = 0
                ↔ i = (encodeVarint v).length - 1)) := by
  constructor
  · have h := readVarint_encode [] [] v
    simpa using h
  · exact encodeVarint_getD v

/-- C6 witness: round trips at 0, 127, 128, 16384 and `2^35`, and the first
byte of the six-byte encoding of `2^35` has its continuation bit set. -/
theorem claim_C6_witness :
    readVarint (encodeVarint 0) 0 = (0, 1)
      ∧ readVarint (encodeVarint 127) 0 = (127, 1)
      ∧ readVarint (encodeVarint 128) 0 = (128, 2)
      ∧ readVarint (encodeVarint 16384) 0 = (16384, 3)
      ∧ readVarint (encodeVarint (2 ^ 35)) 0 = (2 ^ 35, 6)
      ∧ (encodeVarint (2 ^ 35)).getD 0 0 &&& 128 ≠ 0 := by
  refine ⟨?_, ?_, ?_, ?_, ?_, ?_⟩
  · exact (claim_C6_varint_roundtrip 0).1.trans (by decide)
  · exact (claim_C6_varint_roundtrip 127).1.trans (by decide)
  · exact (claim_C6_varint_roundtrip 128).1.trans (by decide)
  · exact (claim_C6_varint_roundtrip 16384).1.trans (by decide)
  · exact (claim_C6_varint_roundtrip (2 ^ 35)).1.trans (by decide)
  · intro hc
    exact absurd (((claim_C6_varint_roundtrip (2 ^ 35)).2 0 (by decide)).2.mp hc)
      (by decide)

/-- C10: the scan underlying `removeField` makes strict progress on every
iteration: whenever the offset is inside the buffer, the tag varint consumes
at least one byte, and whichever supported wire type is skipped, the
resulting offset is strictly larger than the iteration's starting offset (an
unsupported wire type instead throws), so the loop always terminates. -/
theorem claim_C10_removeField_progress (buffer : Buffer)
    (offset wt next : Nat) (ho : offset < buffer.length)
    (hs : skipField buffer (readVarint buffer offset).2 wt = .ok next) :
    offset < (readVarint buffer offset).2 ∧ offset < next := by
  have h1 := readVarint_lt_of_lt ho
  have h2 := skipField_ge hs
  exact ⟨h1, by omega⟩

/-- C10 witness: on `[0x08, 0x05]` at offset 0 with wire type 0, the tag read
stops at offset 1 and the skip at offset 2, both strictly beyond 0. -/
theorem claim_C10_witness :
    0 < (readVarint [8, 5] 0).2 ∧ 0 < 2 :=
  claim_C10_removeField_progress [8, 5] 0 0 2 (by decide) (by decide)

/-- C5 counterexample: the buffer `[0x80, 0x80, 0x80, 0x80, 0x08, 0x05]` is a
single well-formed varint field whose tag is `2^31`, i.e. whose field number
(spec sense, exact `tag >> 3`) is the protobuf-legal `2^28 = 268435456`.
Asked to remove exactly that field number, the program computes
`ToInt32(2^31) >> 3 = -268435456 ≠ 268435456` and keeps the field: the
output is the whole input, so "removes every occurrence of field n" (and the
`len(B) - span_length` equation) is false of the program as claimed. -/
theorem claim_C5_counterexample :
    scanFields [128, 128, 128, 128, 8, 5] = .ok [⟨-268435456, 0, 0, 5, 6⟩]
      ∧ (readVarint [128, 128, 128, 128, 8, 5] 0).1 >>> 3 = 268435456
      ∧ removeField [128, 128, 128, 128, 8, 5] 268435456
          = .ok [128, 128, 128, 128, 8, 5] := by
  refine ⟨?_, ?_, ?_⟩ <;> decide

/-- C5 amended: on a buffer of well-formed fields whose field numbers are all
below `2^28` (so every tag stays below `2^31` and the program's
ToInt32-wrapped `tag >> 3` is the spec's field number), `removeField` removes
every occurrence of the target number (the kept fields are exactly the
filter of the field list) and keeps all other fields verbatim in their
original order; in particular, for a buffer `fs₁ ++ [(n, val)] ++ fs₂`
containing exactly one field numbered `n`, the output is the two surrounding
parts concatenated, and its length is the input length minus the removed
field's span length. -/
theorem claim_C5_removeField_all_occurrences (n : Nat)
    (fs fs₁ fs₂ : List (Nat × FieldVal)) (val : FieldVal)
    (hval : ∀ f ∈ fs, f.2.valid)
    (hval₁ : ∀ f ∈ fs₁, f.2.valid) (hval₂ : ∀ f ∈ fs₂, f.2.valid)
    (hv : val.valid)
    (hb : ∀ f ∈ fs, f.1 < 268435456)
    (hb₁ : ∀ f ∈ fs₁, f.1 < 268435456) (hb₂ : ∀ f ∈ fs₂, f.1 < 268435456)
    (hbn : n < 268435456)
    (hn₁ : ∀ f ∈ fs₁, f.1 ≠ n) (hn₂ : ∀ f ∈ fs₂, f.1 ≠ n) :
    removeField (encodeFields fs) n
        = .ok (encodeFields (fs.filter (fun f => f.1 != n)))
      ∧ removeField (encodeFields (fs₁ ++ [(n, val)] ++ fs₂)) n
          = .ok (encodeFields fs₁ ++ encodeFields fs₂)
      ∧ (encodeFields fs₁ ++ encodeFields fs₂).length
          = (encodeFields (fs₁ ++ [(n, val)] ++ fs₂)).length
              - (encodeField n val).length := by
  have hvmid : ∀ f ∈ fs₁ ++ [(n, val)] ++ fs₂, f.2.valid := by
    intro f hf
    simp only [List.mem_append, List.mem_singleton] at hf
    rcases hf with (hf | rfl) | hf
    · exact hval₁ f hf
    · exact hv
    · exact hval₂ f hf
  have hbmid : ∀ f ∈ fs₁ ++ [(n, val)] ++ fs₂, f.1 < 268435456 := by
    intro f hf
    simp only [List.mem_append, List.mem_singleton] at hf
    rcases hf with (hf | rfl) | hf
    · exact hb₁ f hf
    · exact hbn
    · exact hb₂ f hf
  have hfs₁ : fs₁.filter (fun f => f.1 != n) = fs₁ :=
    List.filter_eq_self.mpr (fun a ha => by simpa using hn₁ a ha)
  have hfs₂ : fs₂.filter (fun f => f.1 != n) = fs₂ :=
    List.filter_eq_self.mpr (fun a ha => by simpa using hn₂ a ha)
  have hfilter : (fs₁ ++ [(n, val)] ++ fs₂).filter (fun f => f.1 != n)
      = fs₁ ++ fs₂ := by
    rw [List.filter_append, List.filter_append, hfs₁, hfs₂]
    simp
  refine ⟨removeField_fields n fs hval hb, ?_, ?_⟩
  · rw [removeField_fields n _ hvmid hbmid, hfilter, encodeFields_append]
  · rw [encodeFields_append, encodeFields_append]
    simp only [List.length_append]
    have hmid : encodeFields [(n, val)] = encodeField n val := by
      simp [encodeFields]
    rw [hmid]
    omega

/-- C5 witness: in a three-field buffer whose field 6 occurs twice, both
occurrences are removed; and in `[(1, varint 7)] ++ [(6, varint 5)] ++
[(9, "k")]`, the single field 6 is removed, the other two fields survive
byte-identically, and the length drops by field 6's two-byte span. -/
theorem claim_C5_witness :
    removeField (encodeFields [(1, FieldVal.varint 7), (6, FieldVal.varint 5),
        (6, FieldVal.varint 2)]) 6
        = .ok (encodeFields [(1, FieldVal.varint 7)])
      ∧ removeField (encodeFields ([(1, FieldVal.varint 7)]
            ++ [(6, FieldVal.varint 5)]
            ++ [(9, FieldVal.lengthDelimited [107])])) 6
          = .ok (encodeFields [(1, FieldVal.varint 7)]
              ++ encodeFields [(9, FieldVal.lengthDelimited [107])]) := by
  have h := claim_C5_removeField_all_occurrences 6
    [(1, FieldVal.varint 7), (6, FieldVal.varint 5), (6, FieldVal.varint 2)]
    [(1, FieldVal.varint 7)] [(9, FieldVal.lengthDelimited [107])]
    (FieldVal.varint 5)
    (by decide) (by decide) (by decide) (by decide) (by decide) (by decide)
    (by decide) (by decide) (by decide) (by decide)
  exact ⟨h.1.trans (by decide), h.2.1⟩

/-- C7: `createOAuthField (some "A") "R" 1000` produces a single well-formed
length-delimited field tagged `(6, 2)` — tag varint, length varint, then
exactly that many payload bytes — whose payload re-scans to exactly the four
sub-fields 1, 2, 3, 4 in that order; sub-field 2's payload is the UTF-8 bytes
of `"Bearer"` and sub-field 4's payload `[0x08, 0xE8, 0x07]` is a nested
message whose single field is the varint 1000 numbered 1. -/
theorem claim_C7_createOAuthField_layout :
    createOAuthField (some "A") "R" 1000
        = encodeTag 6 2
            ++ encodeVarint (oauthInfo (some "A") "R" 1000).length
            ++ oauthInfo (some "A") "R" 1000
      ∧ (oauthInfo (some "A") "R" 1000).length = 19
      ∧ (createOAuthField (some "A") "R" 1000).length = 21
      ∧ scanFields (createOAuthField (some "A") "R" 1000)
          = .ok [⟨6, 2, 0, 1, 21⟩]
      ∧ scanFields (oauthInfo (some "A") "R" 1000)
          = .ok [⟨1, 2, 0, 1, 3⟩, ⟨2, 2, 3, 4, 11⟩, ⟨3, 2, 11, 12, 14⟩,
                 ⟨4, 2, 14, 15, 19⟩]
      ∧ readVarint (oauthInfo (some "A") "R" 1000) 4 = (6, 5)
      ∧ ((oauthInfo (some "A") "R" 1000).take 11).drop 5 = utf8Bytes "Bearer"
      ∧ readVarint (oauthInfo (some "A") "R" 1000) 15 = (3, 16)
      ∧ ((oauthInfo (some "A") "R" 1000).take 19).drop 16 = [8, 232, 7]
      ∧ scanFields [8, 232, 7] = .ok [⟨1, 0, 0, 1, 3⟩]
      ∧ readVarint [8, 232, 7] 1 = (1000, 3) := by
  refine ⟨rfl, ?_, ?_, ?_, ?_, ?_, ?_, ?_, ?_, ?_, ?_⟩ <;> decide

/-- C9: the Field Builder guards sub-field 3 (`refresh_token`) with the same
JavaScript truthiness test it uses for sub-field 1 (`access_token`): a
credential whose refresh token is the empty string yields a payload with no
sub-field 3 at all (the re-scan reports only fields `[1, 2, 4]` when the
access token is truthy, `[2, 4]` otherwise), and an empty-string access token
produces exactly the bytes of an absent one. -/
theorem claim_C9_empty_strings_omitted (a : Option String) (r : String)
    (e : Nat) :
    (∃ l, scanFields (oauthInfo a "" e) = .ok l
        ∧ l.map ScannedField.fieldNum = (if truthy a then [1, 2, 4] else [2, 4])
        ∧ ∀ f ∈ l, f.fieldNum ≠ 3)
      ∧ createOAuthField (some "") r e = createOAuthField none r e := by
  constructor
  · have main : ∀ (fs : List (Nat × FieldVal)), (∀ f ∈ fs, f.2.valid) →
        (∀ f ∈ fs, f.1 < 268435456) →
        oauthInfo a "" e = encodeFields fs →
        fs.map (fun f => (f.1 : Int)) = (if truthy a then [1, 2, 4] else [2, 4]) →
        ∃ l, scanFields (oauthInfo a "" e) = .ok l
          ∧ l.map ScannedField.fieldNum
              = (if truthy a then [1, 2, 4] else [2, 4])
          ∧ ∀ f ∈ l, f.fieldNum ≠ 3 := by
      intro fs hval hb heq hmap
      obtain ⟨l, hl, hm, _⟩ := scanFields_fields fs hval hb
      refine ⟨l, by rw [heq]; exact hl, by rw [hm, hmap], ?_⟩
      intro f hf
      have hmem : f.fieldNum ∈ l.map ScannedField.fieldNum :=
        List.mem_map_of_mem _ hf
      rw [hm, hmap] at hmem
      split at hmem <;> simp at hmem <;> omega
    match a with
    | none =>
      refine main [(2, .lengthDelimited (utf8Bytes "Bearer")),
          (4, .lengthDelimited (encodeTag 1 0 ++ encodeVarint e))]
        (by simp [List.forall_mem_cons, FieldVal.valid])
        (by norm_num [List.forall_mem_cons]) ?_ (by simp [truthy])
      simp [oauthInfo, encodeFields, encodeField, FieldVal.wireBytes,
        FieldVal.wireType, show ("".isEmpty) = true from rfl]
    | some s =>
      by_cases hs : s.isEmpty
      · refine main [(2, .lengthDelimited (utf8Bytes "Bearer")),
            (4, .lengthDelimited (encodeTag 1 0 ++ encodeVarint e))]
          (by simp [List.forall_mem_cons, FieldVal.valid])
          (by norm_num [List.forall_mem_cons]) ?_
          (by simp [truthy, hs])
        simp [oauthInfo, encodeFields, encodeField, FieldVal.wireBytes,
          FieldVal.wireType, hs, show ("".isEmpty) = true from rfl]
      · refine main [(1, .lengthDelimited (utf8Bytes s)),
            (2, .lengthDelimited (utf8Bytes "Bearer")),
            (4, .lengthDelimited (encodeTag 1 0 ++ encodeVarint e))]
          (by simp [List.forall_mem_cons, FieldVal.valid])
          (by norm_num [List.forall_mem_cons]) ?_
          (by simp [truthy, hs])
        simp [oauthInfo, encodeFields, encodeField, FieldVal.wireBytes,
          FieldVal.wireType, hs, show ("".isEmpty) = true from rfl]
  · rfl

/-- C9 witness: with a truthy access token `"A"` and empty refresh token, the
19-byte payload re-scans to fields 1, 2, 4 only; and building with
access token `some ""` gives the same bytes as building with `none`. -/
theorem claim_C9_witness :
    scanFields (oauthInfo (some "A") "" 5)
        = .ok [⟨1, 2, 0, 1, 3⟩, ⟨2, 2, 3, 4, 11⟩, ⟨4, 2, 11, 12, 15⟩]
      ∧ createOAuthField (some "") "R" 5 = createOAuthField none "R" 5 :=
  ⟨by decide, (claim_C9_empty_strings_omitted (some "A") "R" 5).2⟩

end ProtoUtils

namespace StateInjector

open ProtoUtils

/-! ## Claim theorems (store layer) -/

/-- C8: for a stored base64 value decoding to a buffer with top-level fields
`[1: v₁, 6: v₆, 9: v₉]`, patching with a new credential stores the base64 of
the buffer with fields `[1: v₁, 9: v₉, 6: new]`: the non-6 fields keep their
exact bytes and order, and the freshly built field 6 is appended after them;
the onboarding sentinel is then set to `"true"`. -/
theorem claim_C8_patch_preserves_other_fields (store : Store)
    (token : TokenData) (s : String) (v₁ v₆ v₉ : FieldVal)
    (hv₁ : v₁.valid) (hv₆ : v₆.valid) (hv₉ : v₉.valid)
    (hget : readDbValue store injectKey = some s)
    (hdec : base64Decode s = encodeFields [(1, v₁), (6, v₆), (9, v₉)]) :
    injectTokenAndReload store token
      = .ok ((store.upsert injectKey (base64Encode
            (encodeFields [(1, v₁), (9, v₉)]
              ++ createOAuthField (some token.access_token)
                  token.refresh_token token.expires_in))).upsert
          onboardingKey "true") := by
  have hval : ∀ f ∈ [(1, v₁), (6, v₆), (9, v₉)], f.2.valid := by
    simp only [List.forall_mem_cons, List.forall_mem_nil]
    exact ⟨hv₁, hv₆, hv₉, fun x hx => absurd hx (List.not_mem_nil x)⟩
  have hfilter : ([(1, v₁), (6, v₆), (9, v₉)]).filter (fun f => f.1 != 6)
      = [(1, v₁), (9, v₉)] := rfl
  have hrm : removeField (base64Decode s) 6
      = .ok (encodeFields [(1, v₁), (9, v₉)]) := by
    rw [hdec, removeField_fields 6 _ hval (by norm_num [List.forall_mem_cons]),
      hfilter]
  unfold injectTokenAndReload
  rw [hget]
  dsimp only
  rw [hrm]

/-- C8 witness: the stored value decodes to fields
`[1: "x", 6: [1,2,3], 9: "keep-me"]`; after the patch the stored value is the
base64 of `[1: "x", 9: "keep-me", 6: <new credential>]` and the onboarding
sentinel is `"true"`. -/
theorem claim_C8_witness :
    injectTokenAndReload ⟨[(injectKey, "CgF4MgMBAgNKB2tlZXAtbWU=")]⟩
        ⟨"A", "R", 1000⟩
      = .ok ⟨[(injectKey, "CgF4SgdrZWVwLW1lMhMKAUESBkJlYXJlchoBUiIDCOgH"),
              (onboardingKey, "true")]⟩ :=
  (claim_C8_patch_preserves_other_fields
      ⟨[(injectKey, "CgF4MgMBAgNKB2tlZXAtbWU=")]⟩ ⟨"A", "R", 1000⟩
      "CgF4MgMBAgNKB2tlZXAtbWU="
      (FieldVal.lengthDelimited [120]) (FieldVal.lengthDelimited [1, 2, 3])
      (FieldVal.lengthDelimited (utf8Bytes "keep-me"))
      (by decide) (by decide) (by decide) (by decide) (by decide)).trans
    (by decide)

end StateInjector
